import Mathlib

/-!
Verification development for an AVL self-balancing binary search tree
implementation (single C++ translation unit).

The development has two layers:

* a functional layer: the purely functional methods of the source
  (`height`, `difference`, the four rotations, `balance`, `insert`,
  `numNodes`, `numNodesSmallerThan`, `numNodesGreaterThan`, `search`)
  are translated to recursive functions on an inductive `BTree`.  This is
  faithful for these methods because, on tree-shaped exclusively-owned
  heaps, their pointer mutations amount to rebuilding the local subtree
  (each rotation's caller rebinds its child pointer to the returned
  node).

* a heap layer: `kSmallest` (a Morris threaded traversal that rewires
  right-child pointers in place) and `deleteNode` (which reads the
  process-wide `root` pointer, discards the result of `balance`, and
  frees nodes) are modelled on an explicit heap of node cells addressed
  by `Nat` indices, with all loops and recursions given explicit fuel;
  exhausted fuel or a dereference of an absent address yields `none`
  (the model of a crash or divergence of the C++ program).  `free` is
  modelled as leaving the cell in place (the address is simply no longer
  supposed to be reachable); this only makes the code look better than
  it is, since the real program has undefined behaviour on a
  use-after-free.

Machine integers (`int`) are modelled as unbounded `Int`; no claim here
depends on overflow.  `INT_MIN` is the concrete constant `intMin`.
-/

/-- Functional view of `struct tree_node`: a key and two optional
children. -/
inductive BTree where
  | nil : BTree
  | node (value : Int) (left right : BTree) : BTree
deriving DecidableEq, Repr

namespace BTree

/-- Left child (`nil` for the empty tree); used to phrase `balance`. -/
def left : BTree → BTree
  | nil => nil
  | node _ l _ => l

/-- Right child (`nil` for the empty tree). -/
def right : BTree → BTree
  | nil => nil
  | node _ _ r => r

end BTree

/-- Translation of `avl_tree::height`: 0 for an absent node, otherwise
1 + max of the children's heights. -/
def heightF : BTree → Int
  | .nil => 0
  | .node _ l r => max (heightF l) (heightF r) + 1

/-- Translation of `avl_tree::difference`: height of the left child
minus height of the right child.  The source dereferences its argument,
so it is only ever called on a non-null node; the `nil` equation is a
junk value for totality. -/
def difference : BTree → Int
  | .nil => 0
  | .node _ l r => heightF l - heightF r

/-- Translation of `avl_tree::rr_rotation` (a left rotation): the right
child becomes the local root.  The source dereferences `parent->right`,
so the fallthrough equations are junk values for totality (the source
never reaches them from `balance`). -/
def rr_rotation : BTree → BTree
  | .node v l (.node rv rl rr) => .node rv (.node v l rl) rr
  | t => t

/-- Translation of `avl_tree::ll_rotation` (a right rotation): the left
child becomes the local root. -/
def ll_rotation : BTree → BTree
  | .node v (.node lv ll lr) r => .node lv ll (.node v lr r)
  | t => t

/-- Translation of `avl_tree::lr_rotation`: left-rotate the left child,
then right-rotate the parent. -/
def lr_rotation : BTree → BTree
  | .node v l r => ll_rotation (.node v (rr_rotation l) r)
  | .nil => .nil

/-- Translation of `avl_tree::rl_rotation`: right-rotate the right
child, then left-rotate the parent. -/
def rl_rotation : BTree → BTree
  | .node v l r => rr_rotation (.node v l (ll_rotation r))
  | .nil => .nil

/-- Translation of `avl_tree::balance`: compute the balance factor and
apply the rotation selected by the decision table. -/
def balanceF (t : BTree) : BTree :=
  let bf := difference t
  if bf > 1 then
    if difference t.left > 0 then ll_rotation t else lr_rotation t
  else if bf < -1 then
    if difference t.right > 0 then rl_rotation t else rr_rotation t
  else t

/-- Translation of `avl_tree::insert`, threading the `elements` member
through: descend by comparison, allocate a leaf in an absent slot and
increment the count, rebalance on the way back up; equal keys fall
through unchanged. -/
def insertF : BTree → Int → Int → BTree × Int
  | .nil, el, v => (.node v .nil .nil, el + 1)
  | .node w l r, el, v =>
    if v < w then
      let p := insertF l el v
      (balanceF (.node w p.1 r), p.2)
    else if v > w then
      let p := insertF r el v
      (balanceF (.node w l p.1), p.2)
    else (.node w l r, el)

/-- Translation of `avl_tree::numNodes`. -/
def numNodes : BTree → Int
  | .nil => 0
  | .node _ l r => 1 + numNodes l + numNodes r

/-- Translation of `avl_tree::numNodesSmallerThan`. -/
def numNodesSmallerThan : BTree → Int → Int
  | .nil, _ => 0
  | .node v l r, x =>
    if v = x then numNodes l
    else if v < x then 1 + numNodes l + numNodesSmallerThan r x
    else numNodesSmallerThan l x

/-- Translation of `avl_tree::numNodesGreaterThan`. -/
def numNodesGreaterThan : BTree → Int → Int
  | .nil, _ => 0
  | .node v l r, x =>
    if v = x then numNodes r
    else if v > x then 1 + numNodes r + numNodesGreaterThan l x
    else numNodesGreaterThan r x

/-- Translation of `avl_tree::search`, returning whether the descent
finds the key. -/
def foundF : BTree → Int → Bool
  | .nil, _ => false
  | .node w l r, v =>
    if w = v then true
    else if w > v then foundF l v
    else foundF r v

/-- In-order key sequence of a tree (the specification's ascending
sequence when the tree is a BST). -/
def inorder : BTree → List Int
  | .nil => []
  | .node v l r => inorder l ++ v :: inorder r

/-- BST-order predicate of the specification: at every node, all keys
of the left subtree are strictly smaller and all keys of the right
subtree strictly greater than the node's key. -/
def isBST : BTree → Bool
  | .nil => true
  | .node v l r =>
    (inorder l).all (fun y => y < v) && (inorder r).all (fun y => v < y)
      && isBST l && isBST r

/-- AVL balance predicate of the specification: at every node the two
subtree heights differ by at most 1. -/
def isBalancedAVL : BTree → Bool
  | .nil => true
  | .node _ l r =>
    (-1 ≤ heightF l - heightF r) && (heightF l - heightF r ≤ 1)
      && isBalancedAVL l && isBalancedAVL r

/-- A heap cell: the three fields of `struct tree_node`, with child
pointers as optional addresses. -/
structure HNode where
  value : Int
  left : Option Nat
  right : Option Nat
deriving DecidableEq, Repr

/-- The heap: node cells addressed by their index.  Allocation appends
a cell; `free` is modelled as a no-op on the cells. -/
abbrev Heap := List HNode

/-- Overwrite the `left` field of the cell at address `a` (no-op when
the address is absent, which never happens in a run that has not
already crashed). -/
def setLeftH (H : Heap) (a : Nat) (p : Option Nat) : Heap :=
  match H[a]? with
  | some n => H.set a ⟨n.value, p, n.right⟩
  | none => H

/-- Overwrite the `right` field of the cell at address `a`. -/
def setRightH (H : Heap) (a : Nat) (p : Option Nat) : Heap :=
  match H[a]? with
  | some n => H.set a ⟨n.value, n.left, p⟩
  | none => H

/-- Overwrite the `value` field of the cell at address `a`. -/
def setValueH (H : Heap) (a : Nat) (v : Int) : Heap :=
  match H[a]? with
  | some n => H.set a ⟨v, n.left, n.right⟩
  | none => H

/-- The constant `INT_MIN`, the initial value of `ksmall` in
`avl_tree::kSmallest`. -/
def intMin : Int := -2147483648

/-- Inner `while` loop of `avl_tree::kSmallest`: from `pre`, follow
`right` pointers until one is null or points back at `curr`; return the
final `pre`.  The C++ loop has no fuel; exhausting the fuel models
divergence and dereferencing an absent address models a crash, neither
of which occurs on well-formed states. -/
def findPre (H : Heap) (curr : Nat) : Nat → Nat → Option Nat
  | 0, _ => none
  | fuel + 1, pre =>
    match H[pre]? with
    | none => none
    | some n =>
      match n.right with
      | none => some pre
      | some r => if r = curr then some pre else findPre H curr fuel r

/-- State of the outer `while` loop of `avl_tree::kSmallest`: the heap
(mutated by the threading), the cursor, the visit counter `count` and
the running result `ksmall`. -/
structure MorrisState where
  heap : Heap
  curr : Option Nat
  count : Int
  ksmall : Int
deriving DecidableEq, Repr

/-- One iteration of the outer `while` loop of `avl_tree::kSmallest`.
A state with a null cursor is returned unchanged (the loop has exited).
`none` models a crash (dereference of an absent address) or a diverging
inner loop. -/
def morrisStep (k : Int) (s : MorrisState) : Option MorrisState :=
  match s.curr with
  | none => some s
  | some c =>
    match s.heap[c]? with
    | none => none
    | some n =>
      match n.left with
      | none =>
        some ⟨s.heap, n.right, s.count + 1,
          if s.count + 1 = k then n.value else s.ksmall⟩
      | some l =>
        match findPre s.heap c (s.heap.length + 1) l with
        | none => none
        | some pre =>
          match s.heap[pre]? with
          | none => none
          | some pn =>
            match pn.right with
            | none => some ⟨setRightH s.heap pre (some c), some l, s.count, s.ksmall⟩
            | some _ =>
              match (setRightH s.heap pre none)[c]? with
              | none => none
              | some n2 =>
                some ⟨setRightH s.heap pre none, n2.right, s.count + 1,
                  if s.count + 1 = k then n2.value else s.ksmall⟩

/-- Iterate `morrisStep` a given number of times.  Once the cursor is
null the state no longer changes, so any sufficiently large fuel gives
the final state of the C++ loop. -/
def morrisRun (k : Int) : Nat → MorrisState → Option MorrisState
  | 0, s => some s
  | n + 1, s => (morrisStep k s).bind (morrisRun k n)

/-- Translation of `avl_tree::kSmallest`: throw (modelled as
`Except.error`) when `k < 1` or `k > elements`, otherwise run the
Morris loop from the given root with `count = 0` and `ksmall = INT_MIN`
and return the final `ksmall` together with the final heap. -/
def kSmallestH (fuel : Nat) (H : Heap) (p : Option Nat) (elements k : Int) :
    Except Unit (Option (Int × Heap)) :=
  if k < 1 ∨ k > elements then .error ()
  else .ok ((morrisRun k fuel ⟨H, p, 0, intMin⟩).map fun s => (s.ksmall, s.heap))

/-- Translation of `avl_tree::height` on the heap (recursion needs fuel
because a corrupted heap can be cyclic, on which the C++ recursion
diverges or overflows the stack, modelled by `none`). -/
def heightP : Nat → Heap → Option Nat → Option Int
  | 0, _, _ => none
  | _ + 1, _, none => some 0
  | fuel + 1, H, some a => do
    let n ← H[a]?
    let hl ← heightP fuel H n.left
    let hr ← heightP fuel H n.right
    some (max hl hr + 1)

/-- Translation of `avl_tree::difference` on the heap; dereferences its
argument like the source. -/
def differenceP (fuel : Nat) (H : Heap) (a : Nat) : Option Int := do
  let n ← H[a]?
  let hl ← heightP fuel H n.left
  let hr ← heightP fuel H n.right
  some (hl - hr)

/-- Translation of `avl_tree::rr_rotation` on the heap: mutates
`parent->right` and `temp->left` in place and returns `temp`'s
address. -/
def rrRotP (H : Heap) (a : Nat) : Option (Heap × Nat) := do
  let n ← H[a]?
  let t ← n.right
  let tn ← H[t]?
  let H1 := setRightH H a tn.left
  some (setLeftH H1 t (some a), t)

/-- Translation of `avl_tree::ll_rotation` on the heap. -/
def llRotP (H : Heap) (a : Nat) : Option (Heap × Nat) := do
  let n ← H[a]?
  let t ← n.left
  let tn ← H[t]?
  let H1 := setLeftH H a tn.right
  some (setRightH H1 t (some a), t)

/-- Translation of `avl_tree::lr_rotation` on the heap. -/
def lrRotP (H : Heap) (a : Nat) : Option (Heap × Nat) := do
  let n ← H[a]?
  let t ← n.left
  let p ← rrRotP H t
  let H2 := setLeftH p.1 a (some p.2)
  llRotP H2 a

/-- Translation of `avl_tree::rl_rotation` on the heap. -/
def rlRotP (H : Heap) (a : Nat) : Option (Heap × Nat) := do
  let n ← H[a]?
  let t ← n.right
  let p ← llRotP H t
  let H2 := setRightH p.1 a (some p.2)
  rrRotP H2 a

/-- Translation of `avl_tree::balance` on the heap: returns the new
subtree root together with the mutated heap.  Callers that discard the
returned address (as `deleteNode` does) keep only the heap. -/
def balanceP (fuel : Nat) (H : Heap) (a : Nat) : Option (Heap × Nat) := do
  let bf ← differenceP fuel H a
  if bf > 1 then do
    let n ← H[a]?
    let l ← n.left
    let dl ← differenceP fuel H l
    if dl > 0 then llRotP H a else lrRotP H a
  else if bf < -1 then do
    let n ← H[a]?
    let r ← n.right
    let dr ← differenceP fuel H r
    if dr > 0 then rlRotP H a else rrRotP H a
  else some (H, a)

/-- Translation of `avl_tree::insert` on the heap, threading the
`elements` member: returns the mutated heap, the returned subtree
address and the new element count. -/
def insertP : Nat → Heap → Int → Option Nat → Int → Option (Heap × Option Nat × Int)
  | 0, _, _, _, _ => none
  | _ + 1, H, el, none, v =>
    some (H ++ [⟨v, none, none⟩], some H.length, el + 1)
  | fuel + 1, H, el, some a, v => do
    let n ← H[a]?
    if v < n.value then do
      let q ← insertP fuel H el n.left v
      let H2 := setLeftH q.1 a q.2.1
      let b ← balanceP (fuel + 1) H2 a
      some (b.1, some b.2, q.2.2)
    else if v > n.value then do
      let q ← insertP fuel H el n.right v
      let H2 := setRightH q.1 a q.2.1
      let b ← balanceP (fuel + 1) H2 a
      some (b.1, some b.2, q.2.2)
    else some (H, some a, el)

/-- Translation of `avl_tree::minValueNode` on the heap: follow `left`
pointers to the leftmost node; returns the address the source returns
(null when called on null). -/
def minValueP : Nat → Heap → Option Nat → Option (Option Nat)
  | 0, _, _ => none
  | _ + 1, _, none => some none
  | fuel + 1, H, some a => do
    let n ← H[a]?
    match n.left with
    | none => some (some a)
    | some l => minValueP fuel H l

/-- Translation of `avl_tree::deleteNode` on the heap.  `groot` is the
process-wide `root` pointer the source consults: the early-exit test is
`root == nullptr` (not the subtree argument), and the zero/one-child
splices read `root->right` and `root->left` (not the matching node's
children).  The result of the final `balance(rootNode)` call is
discarded: only its heap mutations survive, and the function still
returns `rootNode`.  `elements` is decremented only in the two-children
branch.  `free` is a no-op on the modelled heap. -/
def deleteNodeP : Nat → Heap → Option Nat → Int → Option Nat → Int →
    Option (Heap × Option Nat × Int)
  | 0, _, _, _, _, _ => none
  | fuel + 1, H, groot, el, p, v =>
    match groot with
    | none => some (H, none, el)
    | some g => do
      let a ← p
      let n ← H[a]?
      if v < n.value then do
        let q ← deleteNodeP fuel H groot el n.left v
        let H2 := setLeftH q.1 a q.2.1
        let b ← balanceP (fuel + 1) H2 a
        some (b.1, some a, q.2.2)
      else if v > n.value then do
        let q ← deleteNodeP fuel H groot el n.right v
        let H2 := setRightH q.1 a q.2.1
        let b ← balanceP (fuel + 1) H2 a
        some (b.1, some a, q.2.2)
      else
        match n.left with
        | none => do
          let gn ← H[g]?
          some (H, gn.right, el)
        | some _ =>
          match n.right with
          | none => do
            let gn ← H[g]?
            some (H, gn.left, el)
          | some ra => do
            let tptr ← minValueP (fuel + 1) H (some ra)
            let t ← tptr
            let tn ← H[t]?
            let H1 := setValueH H a tn.value
            let n1 ← H1[a]?
            let t2 ← H1[t]?
            let q ← deleteNodeP fuel H1 groot el n1.right t2.value
            let H2 := setRightH q.1 a q.2.1
            let el2 := q.2.2 - 1
            let b ← balanceP (fuel + 1) H2 a
            some (b.1, some a, el2)

/-- The aggregate the class maintains: the heap of cells, the
process-wide `root` pointer and the `elements` member. -/
structure AVLState where
  heap : Heap
  root : Option Nat
  elements : Int
deriving DecidableEq, Repr

/-- The freshly constructed tree: null root, zero elements. -/
def emptyAVL : AVLState := ⟨[], none, 0⟩

/-- Public insert: `root = insert(root, v)` (the caller rebinds the
root to the returned pointer, as the specification directs). -/
def avlInsert (fuel : Nat) (s : AVLState) (v : Int) : Option AVLState :=
  (insertP fuel s.heap s.elements s.root v).map fun q => ⟨q.1, q.2.1, q.2.2⟩

/-- Public delete: `root = deleteNode(root, v)`, with the process-wide
root visible to the callee. -/
def avlDelete (fuel : Nat) (s : AVLState) (v : Int) : Option AVLState :=
  (deleteNodeP fuel s.heap s.root s.elements s.root v).map fun q => ⟨q.1, q.2.1, q.2.2⟩

/-- Decode the functional tree reachable from an address (fuelled:
a corrupted heap can be cyclic, in which case no decoding exists). -/
def decodeT : Nat → Heap → Option Nat → Option BTree
  | 0, _, _ => none
  | _ + 1, _, none => some .nil
  | fuel + 1, H, some a => do
    let n ← H[a]?
    let l ← decodeT fuel H n.left
    let r ← decodeT fuel H n.right
    some (.node n.value l r)

/-- Fold step recording one visit of the Morris loop on the pair
(count, ksmall): increment the counter, and when it reaches `k` record
the visited value. -/
def visitFold (k : Int) (cks : Int × Int) (v : Int) : Int × Int :=
  (cks.1 + 1, if cks.1 + 1 = k then v else cks.2)

/-- Counter and `ksmall` after visiting a list of values in order. -/
def visitList (k : Int) (cks : Int × Int) (vs : List Int) : Int × Int :=
  vs.foldl (visitFold k) cks

/-- Storage relation: the functional tree is laid out in the heap at
the given root pointer, occupying exactly the listed addresses (in
preorder), except that the rightmost node's `right` field holds the
exit pointer `e` instead of null.  Plain storage is `e = none`; the
Morris traversal threads a subtree by pointing `e` at an ancestor.  An
empty subtree is stored at the exit pointer itself (its traversal
leaves immediately through `e`). -/
inductive IsTreeX (H : Heap) : Option Nat → BTree → List Nat → Option Nat → Prop where
  | nil (e : Option Nat) : IsTreeX H e .nil [] e
  | node (a : Nat) (v : Int) (la ra : Option Nat) (l r : BTree)
      (al ar : List Nat) (e : Option Nat) :
      H[a]? = some ⟨v, la, ra⟩ →
      IsTreeX H la l al none →
      IsTreeX H ra r ar e →
      IsTreeX H (some a) (.node v l r) (a :: (al ++ ar)) e

/-- Concrete example heap used to instantiate the traversal theorems:
the balanced tree with keys 1, 2, 3 (root 2 at address 0). -/
def wHeap : Heap := [⟨2, some 1, some 2⟩, ⟨1, none, none⟩, ⟨3, none, none⟩]

/-- The functional tree stored in `wHeap`. -/
def wTree : BTree := .node 2 (.node 1 .nil .nil) (.node 3 .nil .nil)

/-- Claim C1: the claim says every insert/delete sequence from the empty tree
keeps BST order and AVL balance at every node, with delete rebalancing
like insert.  The code violates this: inserting 2, 1, 3 and then
deleting 1 makes the root's left pointer the *global* root's right
child (the node holding 3), so the reachable tree is
`node 2 (node 3) (node 3)`, which violates BST order.  (The final
`balance(rootNode)` call's result is also discarded at line 325.) -/
theorem deleteNode_breaks_bst_invariant :
    (do
      let s1 ← avlInsert 9 emptyAVL 2
      let s2 ← avlInsert 9 s1 1
      let s3 ← avlInsert 9 s2 3
      avlDelete 9 s3 1)
      = some ⟨[⟨2, some 2, some 2⟩, ⟨1, none, none⟩, ⟨3, none, none⟩], some 0, 3⟩
    ∧ (do
        let s1 ← avlInsert 9 emptyAVL 2
        let s2 ← avlInsert 9 s1 1
        let s3 ← avlInsert 9 s2 3
        let s4 ← avlDelete 9 s3 1
        decodeT 9 s4.heap s4.root)
      = some (.node 2 (.node 3 .nil .nil) (.node 3 .nil .nil))
    ∧ isBST (.node 2 (.node 3 .nil .nil) (.node 3 .nil .nil)) = false :=
  ⟨rfl, rfl, rfl⟩

/-- Claim C2: the claim says delete of an absent value always completes and
returns the tree unchanged.  Deleting from the empty tree does return
the empty tree, but deleting an absent value from a non-empty tree
crashes: the early-exit test reads the process-wide `root` instead of
the null subtree argument, and the next line dereferences that null
argument (modelled by `none`). -/
theorem deleteNode_absent_value_crashes :
    avlDelete 9 emptyAVL 3 = some emptyAVL
    ∧ (do
        let s1 ← avlInsert 9 emptyAVL 5
        avlDelete 9 s1 3)
      = (none : Option AVLState) :=
  ⟨rfl, rfl⟩

/-- Claim C3: the claim says deleting a present zero/one-child node splices
out exactly that node, so the key set shrinks by the deleted value.
The code splices in the *global* root's child instead: deleting the
leaf 3 from the tree built by inserting 2, 1, 3 returns the tree
completely unchanged (the parent's pointer is set to `root->right`,
which is the node 3 itself), so the key 3 is still present. -/
theorem deleteNode_leaf_splice_wrong :
    (do
      let s1 ← avlInsert 9 emptyAVL 2
      let s2 ← avlInsert 9 s1 1
      let s3 ← avlInsert 9 s2 3
      avlDelete 9 s3 3)
      = some ⟨[⟨2, some 1, some 2⟩, ⟨1, none, none⟩, ⟨3, none, none⟩], some 0, 3⟩
    ∧ (do
        let s1 ← avlInsert 9 emptyAVL 2
        let s2 ← avlInsert 9 s1 1
        let s3 ← avlInsert 9 s2 3
        let s4 ← avlDelete 9 s3 3
        decodeT 9 s4.heap s4.root)
      = some (.node 2 (.node 1 .nil .nil) (.node 3 .nil .nil))
    ∧ foundF (.node 2 (.node 1 .nil .nil) (.node 3 .nil .nil)) 3 = true :=
  ⟨rfl, rfl, rfl⟩

/-- Claim C4: the claim says `elementCount` tracks the reachable node count,
decrementing by exactly 1 on every delete of a present key.  The code
decrements `elements` only in the two-children branch: deleting the
sole key 1 after inserting it leaves `elements = 1` while the reachable
tree is empty (0 nodes). -/
theorem deleteNode_count_not_decremented :
    (do
      let s1 ← avlInsert 9 emptyAVL 1
      avlDelete 9 s1 1)
      = some ⟨[⟨1, none, none⟩], none, 1⟩
    ∧ decodeT 9 [⟨1, none, none⟩] none = some .nil
    ∧ numNodes .nil = 0 :=
  ⟨rfl, rfl, rfl⟩

/-- Claim C5: `balance` computes the balance factor as left height minus
right height (absent subtree height 0, leaf height 1) and applies
exactly the rotation of the decision table, returning the node
unchanged when the factor lies in [-1, 1]. -/
theorem balance_decision_table (v : Int) (l r : BTree) :
    difference (BTree.node v l r) = heightF l - heightF r
    ∧ heightF BTree.nil = 0
    ∧ (∀ x : Int, heightF (BTree.node x .nil .nil) = 1)
    ∧ (heightF l - heightF r > 1 → difference l > 0 →
        balanceF (BTree.node v l r) = ll_rotation (BTree.node v l r))
    ∧ (heightF l - heightF r > 1 → difference l ≤ 0 →
        balanceF (BTree.node v l r) = lr_rotation (BTree.node v l r))
    ∧ (heightF l - heightF r < -1 → difference r > 0 →
        balanceF (BTree.node v l r) = rl_rotation (BTree.node v l r))
    ∧ (heightF l - heightF r < -1 → difference r ≤ 0 →
        balanceF (BTree.node v l r) = rr_rotation (BTree.node v l r))
    ∧ (-1 ≤ heightF l - heightF r → heightF l - heightF r ≤ 1 →
        balanceF (BTree.node v l r) = BTree.node v l r) := by
  refine ⟨rfl, rfl, fun x => rfl, ?_, ?_, ?_, ?_, ?_⟩ <;>
    · intro h1 h2
      have hd : difference (BTree.node v l r) = heightF l - heightF r := rfl
      simp only [balanceF, BTree.left, BTree.right, hd]
      split_ifs <;> first | rfl | omega

/-- Concrete instance of the decision table: a pure left-left chain has
balance factor 2 with a left-heavy left child, so `balance` performs a
right rotation. -/
theorem balance_decision_table_witness :
    balanceF (.node 3 (.node 2 (.node 1 .nil .nil) .nil) .nil)
      = ll_rotation (.node 3 (.node 2 (.node 1 .nil .nil) .nil) .nil) :=
  (balance_decision_table 3 (.node 2 (.node 1 .nil .nil) .nil) .nil).2.2.2.1
    (by decide) (by decide)

/-- The node count of a tree is the length of its in-order key list. -/
theorem numNodes_eq_length (t : BTree) :
    numNodes t = ((inorder t).length : Int) := by
  induction t with
  | nil => simp [numNodes, inorder]
  | node v l r ihl ihr =>
    simp only [numNodes, inorder, List.length_append, List.length_cons, ihl, ihr]
    push_cast
    omega

/-- On a BST the in-order key list is strictly increasing. -/
theorem chain'_lt_inorder (t : BTree) (h : isBST t = true) :
    List.Chain' (· < ·) (inorder t) := by
  induction t with
  | nil => simp [inorder]
  | node v l r ihl ihr =>
    simp only [isBST, Bool.and_eq_true, List.all_eq_true, decide_eq_true_eq] at h
    obtain ⟨⟨⟨hl, hr⟩, hbl⟩, hbr⟩ := h
    simp only [inorder]
    rw [List.chain'_append]
    refine ⟨ihl hbl, ?_, ?_⟩
    · rw [List.chain'_cons']
      exact ⟨fun y hy => hr y (List.mem_of_mem_head? hy), ihr hbr⟩
    · intro p hp q hq
      have hpmem : p ∈ inorder l := List.mem_of_mem_getLast? hp
      have hqv : q = v := by
        simp only [List.head?_cons, Option.mem_def, Option.some_inj] at hq
        exact hq.symm
      subst hqv
      exact hl p hpmem

/-- On a BST the in-order key list has no duplicates. -/
theorem nodup_inorder (t : BTree) (h : isBST t = true) :
    (inorder t).Nodup := by
  have hc := chain'_lt_inorder t h
  have hp : (inorder t).Pairwise (· < ·) := List.chain'_iff_pairwise.mp hc
  exact hp.imp ne_of_lt

/-- On a BST, `numNodesSmallerThan` counts exactly the keys smaller
than the bound. -/
theorem numNodesSmallerThan_filter (t : BTree) (x : Int) (h : isBST t = true) :
    numNodesSmallerThan t x
      = (((inorder t).filter (fun y => decide (y < x))).length : Int) := by
  induction t with
  | nil => simp [numNodesSmallerThan, inorder]
  | node v l r ihl ihr =>
    simp only [isBST, Bool.and_eq_true, List.all_eq_true, decide_eq_true_eq] at h
    obtain ⟨⟨⟨hl, hr⟩, hbl⟩, hbr⟩ := h
    simp only [numNodesSmallerThan, inorder, List.filter_append, List.length_append]
    rcases lt_trichotomy v x with h1 | h1 | h1
    · have hne : ¬ v = x := by omega
      rw [if_neg hne, if_pos h1]
      have e1 : (inorder l).filter (fun y => decide (y < x)) = inorder l :=
        List.filter_eq_self.mpr fun a ha => decide_eq_true (lt_trans (hl a ha) h1)
      have e2 : (v :: inorder r).filter (fun y => decide (y < x))
          = v :: (inorder r).filter (fun y => decide (y < x)) :=
        List.filter_cons_of_pos (decide_eq_true h1)
      rw [e1, e2, ihr hbr, numNodes_eq_length]
      push_cast [List.length_cons, List.length_nil, List.length_append]
      omega
    · subst h1
      rw [if_pos rfl]
      have e1 : (inorder l).filter (fun y => decide (y < v)) = inorder l :=
        List.filter_eq_self.mpr fun a ha => decide_eq_true (hl a ha)
      have e2 : (v :: inorder r).filter (fun y => decide (y < v)) = [] := by
        apply List.filter_eq_nil_iff.mpr
        intro a ha
        simp only [List.mem_cons] at ha
        rcases ha with rfl | ha
        · simp
        · simp only [decide_eq_true_eq]
          exact not_lt.mpr (le_of_lt (hr a ha))
      rw [e1, e2, numNodes_eq_length]
      push_cast [List.length_cons, List.length_nil, List.length_append]
      omega
    · have hne : ¬ v = x := by omega
      have hlt : ¬ v < x := by omega
      rw [if_neg hne, if_neg hlt]
      have e2 : (v :: inorder r).filter (fun y => decide (y < x)) = [] := by
        apply List.filter_eq_nil_iff.mpr
        intro a ha
        simp only [List.mem_cons] at ha
        rcases ha with rfl | ha
        · simp only [decide_eq_true_eq]
          omega
        · simp only [decide_eq_true_eq]
          have := hr a ha
          omega
      rw [e2, ihl hbl]
      push_cast [List.length_cons, List.length_nil, List.length_append]
      omega

/-- On a BST, `numNodesGreaterThan` counts exactly the keys greater
than the bound. -/
theorem numNodesGreaterThan_filter (t : BTree) (x : Int) (h : isBST t = true) :
    numNodesGreaterThan t x
      = (((inorder t).filter (fun y => decide (x < y))).length : Int) := by
  induction t with
  | nil => simp [numNodesGreaterThan, inorder]
  | node v l r ihl ihr =>
    simp only [isBST, Bool.and_eq_true, List.all_eq_true, decide_eq_true_eq] at h
    obtain ⟨⟨⟨hl, hr⟩, hbl⟩, hbr⟩ := h
    simp only [numNodesGreaterThan, inorder, List.filter_append, List.length_append]
    rcases lt_trichotomy v x with h1 | h1 | h1
    · have hne : ¬ v = x := by omega
      have hgt : ¬ v > x := by omega
      rw [if_neg hne, if_neg hgt]
      have e1 : (inorder l).filter (fun y => decide (x < y)) = [] := by
        apply List.filter_eq_nil_iff.mpr
        intro a ha
        simp only [decide_eq_true_eq]
        have := hl a ha
        omega
      have e2 : (v :: inorder r).filter (fun y => decide (x < y))
          = (inorder r).filter (fun y => decide (x < y)) :=
        List.filter_cons_of_neg (by simp only [decide_eq_true_eq]; omega)
      rw [e1, e2, ihr hbr]
      push_cast [List.length_cons, List.length_nil, List.length_append]
      omega
    · subst h1
      rw [if_pos rfl]
      have e1 : (inorder l).filter (fun y => decide (v < y)) = [] := by
        apply List.filter_eq_nil_iff.mpr
        intro a ha
        simp only [decide_eq_true_eq]
        exact not_lt.mpr (le_of_lt (hl a ha))
      have e2 : (v :: inorder r).filter (fun y => decide (v < y)) = inorder r := by
        rw [List.filter_cons_of_neg (by simp)]
        exact List.filter_eq_self.mpr fun a ha => decide_eq_true (hr a ha)
      rw [e1, e2, numNodes_eq_length]
      push_cast [List.length_cons, List.length_nil, List.length_append]
      omega
    · have hne : ¬ v = x := by omega
      rw [if_neg hne, if_pos h1]
      have e2 : (v :: inorder r).filter (fun y => decide (x < y))
          = v :: (inorder r).filter (fun y => decide (x < y)) :=
        List.filter_cons_of_pos (decide_eq_true h1)
      have e3 : (inorder r).filter (fun y => decide (x < y)) = inorder r :=
        List.filter_eq_self.mpr fun a ha => decide_eq_true (lt_trans h1 (hr a ha))
      rw [e2, e3, ihl hbl, numNodes_eq_length]
      push_cast [List.length_cons, List.length_nil, List.length_append]
      omega

/-- Every key of a duplicate-free list is counted exactly once by the
three-way partition below, above, and equal to a pivot. -/
theorem length_filter_partition (x : Int) (L : List Int) (h : L.Nodup) :
    (L.length : Int) = ((L.filter (fun y => decide (y < x))).length : Int)
      + ((L.filter (fun y => decide (x < y))).length : Int)
      + (if x ∈ L then 1 else 0) := by
  induction L with
  | nil => simp
  | cons a L ih =>
    rw [List.nodup_cons] at h
    obtain ⟨ha, hL⟩ := h
    have iv := ih hL
    rcases lt_trichotomy a x with h1 | h1 | h1
    · have hne : ¬ x = a := by omega
      have e1 : (a :: L).filter (fun y => decide (y < x))
          = a :: L.filter (fun y => decide (y < x)) :=
        List.filter_cons_of_pos (decide_eq_true h1)
      have e2 : (a :: L).filter (fun y => decide (x < y))
          = L.filter (fun y => decide (x < y)) :=
        List.filter_cons_of_neg (by simp only [decide_eq_true_eq]; omega)
      rw [e1, e2]
      by_cases hx : x ∈ L
      · rw [if_pos (List.mem_cons_of_mem a hx)]
        rw [if_pos hx] at iv
        push_cast [List.length_cons, List.length_nil, List.length_append]
        linarith
      · have hnm : x ∉ a :: L := by
          simp only [List.mem_cons, not_or]
          exact ⟨hne, hx⟩
        rw [if_neg hnm]
        rw [if_neg hx] at iv
        push_cast [List.length_cons, List.length_nil, List.length_append]
        linarith
    · have e1 : (a :: L).filter (fun y => decide (y < x))
          = L.filter (fun y => decide (y < x)) :=
        List.filter_cons_of_neg (by simp only [decide_eq_true_eq]; omega)
      have e2 : (a :: L).filter (fun y => decide (x < y))
          = L.filter (fun y => decide (x < y)) :=
        List.filter_cons_of_neg (by simp only [decide_eq_true_eq]; omega)
      have hxmem : x ∈ a :: L := by
        rw [← h1]
        exact List.mem_cons_self a L
      have hxnotL : x ∉ L := by
        rw [← h1]
        exact ha
      rw [e1, e2, if_pos hxmem]
      rw [if_neg hxnotL] at iv
      push_cast [List.length_cons, List.length_nil, List.length_append]
      linarith
    · have hne : ¬ x = a := by omega
      have e1 : (a :: L).filter (fun y => decide (y < x))
          = L.filter (fun y => decide (y < x)) :=
        List.filter_cons_of_neg (by simp only [decide_eq_true_eq]; omega)
      have e2 : (a :: L).filter (fun y => decide (x < y))
          = a :: L.filter (fun y => decide (x < y)) :=
        List.filter_cons_of_pos (decide_eq_true h1)
      rw [e1, e2]
      by_cases hx : x ∈ L
      · rw [if_pos (List.mem_cons_of_mem a hx)]
        rw [if_pos hx] at iv
        push_cast [List.length_cons, List.length_nil, List.length_append]
        linarith
      · have hnm : x ∉ a :: L := by
          simp only [List.mem_cons, not_or]
          exact ⟨hne, hx⟩
        rw [if_neg hnm]
        rw [if_neg hx] at iv
        push_cast [List.length_cons, List.length_nil, List.length_append]
        linarith

/-- Claim C8: on any tree satisfying the documented invariants (BST order and
`elementCount` equal to the reachable node count — the specification
requires both after every public operation), the element count splits
as `countSmallerThan x + countGreaterThan x + (1 if x present)`, and
the two counting queries count exactly the keys below and above `x`. -/
theorem count_consistency (t : BTree) (x el : Int)
    (hbst : isBST t = true) (hel : el = numNodes t) :
    numNodesSmallerThan t x
        = (((inorder t).filter (fun y => decide (y < x))).length : Int)
    ∧ numNodesGreaterThan t x
        = (((inorder t).filter (fun y => decide (x < y))).length : Int)
    ∧ el = numNodesSmallerThan t x + numNodesGreaterThan t x
        + (if x ∈ inorder t then 1 else 0) := by
  refine ⟨numNodesSmallerThan_filter t x hbst, numNodesGreaterThan_filter t x hbst, ?_⟩
  rw [hel, numNodes_eq_length, numNodesSmallerThan_filter t x hbst,
    numNodesGreaterThan_filter t x hbst]
  exact length_filter_partition x (inorder t) (nodup_inorder t hbst)

/-- Concrete instance of the count identity on the balanced tree with
keys 1, 2, 3 and pivot 2. -/
theorem count_consistency_witness :
    (3 : Int) = numNodesSmallerThan (.node 2 (.node 1 .nil .nil) (.node 3 .nil .nil)) 2
      + numNodesGreaterThan (.node 2 (.node 1 .nil .nil) (.node 3 .nil .nil)) 2
      + (if 2 ∈ inorder (.node 2 (.node 1 .nil .nil) (.node 3 .nil .nil)) then 1 else 0) :=
  (count_consistency (.node 2 (.node 1 .nil .nil) (.node 3 .nil .nil)) 2 3
    (by decide) (by decide)).2.2

/-- A node whose balance factor already lies in [-1, 1] is returned
unchanged by `balance`. -/
theorem balanceF_id (t : BTree) (h1 : -1 ≤ difference t) (h2 : difference t ≤ 1) :
    balanceF t = t := by
  simp only [balanceF]
  split_ifs <;> first | rfl | (exfalso; omega)

/-- Claim C9: inserting a key the search descent already finds into a tree
satisfying the documented AVL balance invariant returns the identical
tree and leaves the element count unchanged. -/
theorem insert_present_noop (t : BTree) (v el : Int)
    (hb : isBalancedAVL t = true) (hf : foundF t v = true) :
    insertF t el v = (t, el) := by
  induction t generalizing el with
  | nil => simp [foundF] at hf
  | node w l r ihl ihr =>
    simp only [isBalancedAVL, Bool.and_eq_true, decide_eq_true_eq] at hb
    obtain ⟨⟨⟨hb1, hb2⟩, hbl⟩, hbr⟩ := hb
    simp only [foundF] at hf
    have hdiff : difference (BTree.node w l r) = heightF l - heightF r := rfl
    by_cases hwv : w = v
    · subst hwv
      simp [insertF]
    · rw [if_neg hwv] at hf
      by_cases hwgt : w > v
      · rw [if_pos hwgt] at hf
        have ihl' := ihl el hbl hf
        simp only [insertF, if_pos hwgt, ihl']
        rw [balanceF_id (BTree.node w l r) (by rw [hdiff]; omega) (by rw [hdiff]; omega)]
      · rw [if_neg hwgt] at hf
        have hvw : v > w := by
          rcases lt_trichotomy v w with h | h | h
          · exact absurd h hwgt
          · exact absurd h.symm hwv
          · exact h
        have ihr' := ihr el hbr hf
        simp only [insertF, if_neg (asymm hvw), if_pos hvw, ihr']
        rw [balanceF_id (BTree.node w l r) (by rw [hdiff]; omega) (by rw [hdiff]; omega)]

/-- Concrete instance: re-inserting the present key 1 into the
balanced tree with keys 1, 2, 3 changes nothing. -/
theorem insert_present_noop_witness :
    insertF (.node 2 (.node 1 .nil .nil) (.node 3 .nil .nil)) 1 3
      = (.node 2 (.node 1 .nil .nil) (.node 3 .nil .nil), 1) :=
  insert_present_noop (.node 2 (.node 1 .nil .nil) (.node 3 .nil .nil)) 3 1
    (by decide) (by decide)

/-- Run fuel composes: running `m + n` iterations is running `m`, then
`n` more from the intermediate state. -/
theorem morrisRun_add (k : Int) (m n : Nat) (s : MorrisState) :
    morrisRun k (m + n) s = (morrisRun k m s).bind (morrisRun k n) := by
  induction m generalizing s with
  | zero => simp [morrisRun]
  | succ m ih =>
    have hmn : m + 1 + n = (m + n) + 1 := by omega
    rw [hmn]
    show (morrisStep k s).bind (morrisRun k (m + n))
      = ((morrisStep k s).bind (morrisRun k m)).bind (morrisRun k n)
    cases morrisStep k s with
    | none => rfl
    | some s2 => exact ih s2

/-- Once the cursor is null the loop has exited: further iterations do
not change the state. -/
theorem morrisRun_stable (k : Int) (n : Nat) (s : MorrisState) (h : s.curr = none) :
    morrisRun k n s = some s := by
  induction n with
  | zero => rfl
  | succ n ih =>
    have hstep : morrisStep k s = some s := by
      unfold morrisStep
      rw [h]
    show (morrisStep k s).bind (morrisRun k n) = some s
    rw [hstep]
    exact ih

/-- All addresses occupied by a stored tree are inside the heap. -/
theorem isTreeX_lt (H : Heap) (p : Option Nat) (t : BTree) (as : List Nat)
    (e : Option Nat) (h : IsTreeX H p t as e) : ∀ x ∈ as, x < H.length := by
  induction h with
  | nil e => simp
  | node a v la ra l r al ar e ha hl hr ihl ihr =>
    intro x hx
    simp only [List.mem_cons, List.mem_append] at hx
    rcases hx with rfl | hx | hx
    · obtain ⟨hlt, -⟩ := List.getElem?_eq_some_iff.mp ha
      exact hlt
    · exact ihl x hx
    · exact ihr x hx

/-- A duplicate-free list of naturals below a bound has length at most
that bound. -/
theorem nodup_length_le (as : List Nat) (n : Nat) (hnd : as.Nodup)
    (hlt : ∀ x ∈ as, x < n) : as.length ≤ n := by
  have h1 : as.toFinset.card = as.length := List.toFinset_card_of_nodup hnd
  have h2 : as.toFinset ⊆ Finset.range n := by
    intro x hx
    rw [List.mem_toFinset] at hx
    exact Finset.mem_range.mpr (hlt x hx)
  have h3 := Finset.card_le_card h2
  rw [h1, Finset.card_range] at h3
  exact h3

/-- Rewiring one cell's right field leaves every other cell alone. -/
theorem getElem?_setRightH_ne (H : Heap) (a x : Nat) (p : Option Nat) (h : x ≠ a) :
    (setRightH H a p)[x]? = H[x]? := by
  unfold setRightH
  cases hh : H[a]? with
  | none => rfl
  | some n => exact List.getElem?_set_ne (fun he => h he.symm)

/-- Rewiring a present cell's right field updates exactly that field. -/
theorem getElem?_setRightH_self (H : Heap) (a : Nat) (n : HNode) (p : Option Nat)
    (h : H[a]? = some n) : (setRightH H a p)[a]? = some ⟨n.value, n.left, p⟩ := by
  unfold setRightH
  rw [h]
  obtain ⟨hlt, -⟩ := List.getElem?_eq_some_iff.mp h
  exact List.getElem?_set_self hlt

/-- Rewiring a right field preserves the heap's size. -/
theorem setRightH_length (H : Heap) (a : Nat) (p : Option Nat) :
    (setRightH H a p).length = H.length := by
  unfold setRightH
  cases H[a]? <;> simp

/-- Two successive rewirings of the same cell keep only the second. -/
theorem setRightH_setRightH (H : Heap) (a : Nat) (n : HNode) (p q : Option Nat)
    (h : H[a]? = some n) :
    setRightH (setRightH H a p) a q = setRightH H a q := by
  apply List.ext_getElem?
  intro i
  by_cases hi : i = a
  · subst hi
    rw [getElem?_setRightH_self _ _ _ q (getElem?_setRightH_self H i n p h),
      getElem?_setRightH_self H i n q h]
  · rw [getElem?_setRightH_ne _ _ _ _ hi, getElem?_setRightH_ne _ _ _ _ hi,
      getElem?_setRightH_ne _ _ _ _ hi]

/-- Rewiring a right field to the value it already has is the
identity. -/
theorem setRightH_same (H : Heap) (a : Nat) (n : HNode) (h : H[a]? = some n) :
    setRightH H a n.right = H := by
  apply List.ext_getElem?
  intro i
  by_cases hi : i = a
  · subst hi
    rw [getElem?_setRightH_self H i n n.right h, h]
  · rw [getElem?_setRightH_ne _ _ _ _ hi]

/-- Splitting the no-duplicates property of a stored node's address
list into the pieces the spine argument needs. -/
theorem nodup_parts (p : Nat) (al ar : List Nat) (h : (p :: (al ++ ar)).Nodup) :
    p ∉ al ∧ p ∉ ar ∧ al.Nodup ∧ ar.Nodup ∧ ∀ x ∈ ar, x ∉ al := by
  rw [List.nodup_cons, List.nodup_append] at h
  obtain ⟨hp, h1, h2, h3⟩ := h
  simp only [List.mem_append, not_or] at hp
  exact ⟨hp.1, hp.2, h1, h2, fun x hx hxl => h3 hxl hx⟩

/-- A stored non-empty tree sits at an actual address. -/
theorem isTreeX_node_some (H : Heap) (q : Option Nat) (v : Int) (l r : BTree)
    (as : List Nat) (e : Option Nat) (h : IsTreeX H q (.node v l r) as e) :
    ∃ a, q = some a := by
  cases h
  exact ⟨_, rfl⟩

/-- A stored tree's root pointer is either its exit (empty tree) or one
of its addresses. -/
theorem isTreeX_root_cases (H : Heap) (q : Option Nat) (t : BTree)
    (as : List Nat) (e : Option Nat) (h : IsTreeX H q t as e) :
    q = e ∨ ∃ y ∈ as, q = some y := by
  cases h with
  | nil e => exact Or.inl rfl
  | node a v la ra l r al ar e ha hl hr =>
    exact Or.inr ⟨a, List.mem_cons_self a _, rfl⟩

/-- Within a stored tree, every cell's right field is null, the exit
pointer, or another address of the tree. -/
theorem isTreeX_right_field (H : Heap) (p : Option Nat) (t : BTree)
    (as : List Nat) (e : Option Nat) (h : IsTreeX H p t as e) :
    ∀ x ∈ as, ∀ hn : HNode, H[x]? = some hn →
      hn.right = none ∨ hn.right = e ∨ ∃ y ∈ as, hn.right = some y := by
  induction h with
  | nil e => simp
  | node a v la ra l r al ar e ha hl hr ihl ihr =>
    intro x hx hn hhn
    simp only [List.mem_cons, List.mem_append] at hx
    rcases hx with rfl | hx | hx
    · rw [ha] at hhn
      have hn_eq : hn = ⟨v, la, ra⟩ := by
        cases hhn
        rfl
      subst hn_eq
      rcases isTreeX_root_cases H ra r ar e hr with hre | ⟨y, hy, hry⟩
      · exact Or.inr (Or.inl hre)
      · exact Or.inr (Or.inr ⟨y, by
          simp only [List.mem_cons, List.mem_append]
          exact Or.inr (Or.inr hy), hry⟩)
    · rcases ihl x hx hn hhn with h0 | h0 | ⟨y, hy, hry⟩
      · exact Or.inl h0
      · exact Or.inl h0
      · exact Or.inr (Or.inr ⟨y, by
          simp only [List.mem_cons, List.mem_append]
          exact Or.inr (Or.inl hy), hry⟩)
    · rcases ihr x hx hn hhn with h0 | h0 | ⟨y, hy, hry⟩
      · exact Or.inl h0
      · exact Or.inr (Or.inl h0)
      · exact Or.inr (Or.inr ⟨y, by
          simp only [List.mem_cons, List.mem_append]
          exact Or.inr (Or.inr hy), hry⟩)

/-- Rewiring a cell outside a stored tree's address set does not
disturb the storage relation. -/
theorem isTreeX_frame (H : Heap) (p : Option Nat) (t : BTree) (as : List Nat)
    (e : Option Nat) (w : Nat) (q : Option Nat)
    (h : IsTreeX H p t as e) (hw : w ∉ as) :
    IsTreeX (setRightH H w q) p t as e := by
  induction h with
  | nil e => exact IsTreeX.nil e
  | node a v la ra l r al ar e ha hl hr ihl ihr =>
    simp only [List.mem_cons, List.mem_append, not_or] at hw
    obtain ⟨hwa, hwl, hwr⟩ := hw
    refine IsTreeX.node a v la ra l r al ar e ?_ (ihl hwl) (ihr hwr)
    rw [getElem?_setRightH_ne _ _ _ _ (fun he => hwa he.symm)]
    exact ha

/-- Spine lemma: a stored non-empty subtree has a rightmost cell
holding the exit pointer in its right field; the inner predecessor loop
of `kSmallest` finds exactly that cell (for any cursor address outside
the subtree and enough fuel), and rewiring that cell's right field to
`q` stores the same subtree with exit `q`. -/
theorem isTreeX_spine (t : BTree) :
    ∀ (H : Heap) (p : Nat) (as : List Nat) (e : Option Nat),
    t ≠ .nil → IsTreeX H (some p) t as e → as.Nodup →
    ∃ ρ, ρ ∈ as ∧
      (∃ w wl, H[ρ]? = some ⟨w, wl, e⟩) ∧
      (∀ c fuel, as.length ≤ fuel → (e = none ∨ e = some c) → c ∉ as →
        findPre H c fuel p = some ρ) ∧
      (∀ q, IsTreeX (setRightH H ρ q) (some p) t as q) := by
  induction t with
  | nil =>
    intro H p as e hne h hnd
    exact absurd rfl hne
  | node v l r ihl ihr =>
    intro H p as e hne h hnd
    cases h with
    | node p v2 la ra l2 r2 al ar e2 ha hl hr =>
      obtain ⟨hpal, hpar, hndal, hndar, hdisj⟩ := nodup_parts p al ar hnd
      cases r with
      | nil =>
        cases hr with
        | nil =>
          refine ⟨p, List.mem_cons_self p _, ⟨v, la, ha⟩, ?_, ?_⟩
          · intro c fuel hfuel he hc
            cases fuel with
            | zero =>
              simp only [List.length_cons] at hfuel
              omega
            | succ f =>
              simp only [findPre]
              rw [ha]
              rcases he with rfl | rfl
              · rfl
              · show (if c = c then some p else findPre H c f c) = some p
                rw [if_pos rfl]
          · intro q
            have hsr : (setRightH H p q)[p]? = some ⟨v, la, q⟩ :=
              getElem?_setRightH_self H p ⟨v, la, e⟩ q ha
            exact IsTreeX.node p v la q l .nil al [] q hsr
              (isTreeX_frame H la l al none p q hl hpal) (IsTreeX.nil q)
      | node rv rl rr =>
        obtain ⟨raddr, hra⟩ := isTreeX_node_some H ra rv rl rr ar e hr
        subst hra
        obtain ⟨ρ, hρmem, hρheap, hρfind, hρset⟩ :=
          ihr H raddr ar e (by simp) hr hndar
        have hraddr_mem : raddr ∈ ar := by
          cases hr with
          | node a3 v3 la3 ra3 l3 r3 al3 ar3 e3 ha3 hl3 hr3 =>
            exact List.mem_cons_self _ _
        refine ⟨ρ, List.mem_cons_of_mem p (List.mem_append_right al hρmem),
          hρheap, ?_, ?_⟩
        · intro c fuel hfuel he hc
          cases fuel with
          | zero =>
            simp only [List.length_cons] at hfuel
            omega
          | succ f =>
            simp only [findPre]
            rw [ha]
            have hrc : ¬ raddr = c := by
              intro hh
              subst hh
              exact hc (List.mem_cons_of_mem p (List.mem_append_right al hraddr_mem))
            show (if raddr = c then some p else findPre H c f raddr) = some ρ
            rw [if_neg hrc]
            refine hρfind c f ?_ he
              (fun hcc => hc (List.mem_cons_of_mem p (List.mem_append_right al hcc)))
            simp only [List.length_cons, List.length_append] at hfuel ⊢
            omega
        · intro q
          have hρne : ρ ≠ p := fun hh => hpar (hh ▸ hρmem)
          have hρnal : ρ ∉ al := fun hh => hdisj ρ hρmem hh
          refine IsTreeX.node p v la (some raddr) l (.node rv rl rr) al ar q
            ?_ (isTreeX_frame H la l al none ρ q hl hρnal) (hρset q)
          rw [getElem?_setRightH_ne H ρ p q (fun hh => hρne hh.symm)]
          exact ha

/-- Step equation: cursor at a cell with no left child — visit it and
move right. -/
theorem morrisStep_visit (k : Int) (H : Heap) (c : Nat) (cnt ks : Int)
    (n : HNode) (hn : H[c]? = some n) (hl : n.left = none) :
    morrisStep k ⟨H, some c, cnt, ks⟩ =
      some ⟨H, n.right, cnt + 1, if cnt + 1 = k then n.value else ks⟩ := by
  simp only [morrisStep, hn, hl]

/-- Step equation: cursor at a cell with a left child whose
predecessor's right field is null — thread it and descend left. -/
theorem morrisStep_thread (k : Int) (H : Heap) (c l pre : Nat) (cnt ks : Int)
    (n pn : HNode) (hn : H[c]? = some n) (hl : n.left = some l)
    (hfp : findPre H c (H.length + 1) l = some pre)
    (hpn : H[pre]? = some pn) (hpr : pn.right = none) :
    morrisStep k ⟨H, some c, cnt, ks⟩ =
      some ⟨setRightH H pre (some c), some l, cnt, ks⟩ := by
  simp only [morrisStep, hn, hl, hfp, hpn, hpr]

/-- Step equation: cursor at a cell with a left child whose
predecessor's right field is a thread — unthread, visit, move right. -/
theorem morrisStep_unthread (k : Int) (H : Heap) (c l pre w : Nat) (cnt ks : Int)
    (n pn n2 : HNode) (hn : H[c]? = some n) (hl : n.left = some l)
    (hfp : findPre H c (H.length + 1) l = some pre)
    (hpn : H[pre]? = some pn) (hpr : pn.right = some w)
    (hn2 : (setRightH H pre none)[c]? = some n2) :
    morrisStep k ⟨H, some c, cnt, ks⟩ =
      some ⟨setRightH H pre none, n2.right, cnt + 1,
        if cnt + 1 = k then n2.value else ks⟩ := by
  simp only [morrisStep, hn, hl, hfp, hpn, hpr, hn2]

/-- The counter after visiting a list advances by its length. -/
theorem visitList_fst (k : Int) (vs : List Int) :
    ∀ cks : Int × Int, (visitList k cks vs).1 = cks.1 + vs.length := by
  induction vs with
  | nil => intro cks; simp [visitList]
  | cons v vs ih =>
    intro cks
    show (visitList k (visitFold k cks v) vs).1 = _
    rw [ih]
    simp only [visitFold, List.length_cons]
    push_cast
    omega

/-- The `ksmall` register after visiting a list: it picks out the
`k`-th visited value (1-indexed relative to the starting counter) when
the list is long enough, and is untouched otherwise. -/
theorem visitList_snd (k : Int) (vs : List Int) :
    ∀ c ks : Int, (visitList k (c, ks) vs).2
      = if c < k ∧ k ≤ c + vs.length then vs.getD (k - c - 1).toNat 0 else ks := by
  induction vs with
  | nil =>
    intro c ks
    show ks = _
    rw [if_neg (by simp only [List.length_nil]; push_cast; omega)]
  | cons v vs ih =>
    intro c ks
    show (visitList k (c + 1, if c + 1 = k then v else ks) vs).2 = _
    rw [ih]
    by_cases h1 : c + 1 = k
    · rw [if_neg (by omega)]
      rw [if_pos h1]
      rw [if_pos (show c < k ∧ k ≤ c + ((v :: vs).length : Int) by
        simp only [List.length_cons]; push_cast; omega)]
      have hidx : (k - c - 1).toNat = 0 := by omega
      rw [hidx, List.getD_cons_zero]
    · by_cases h2 : c + 1 < k ∧ k ≤ c + 1 + vs.length
      · rw [if_pos h2]
        rw [if_pos (show c < k ∧ k ≤ c + ((v :: vs).length : Int) by
          simp only [List.length_cons]; push_cast; omega)]
        have hidx : (k - c - 1).toNat = (k - (c + 1) - 1).toNat + 1 := by omega
        rw [hidx, List.getD_cons_succ]
      · rw [if_neg h2, if_neg h1]
        rw [if_neg (show ¬ (c < k ∧ k ≤ c + ((v :: vs).length : Int)) by
          simp only [List.length_cons]; push_cast; omega)]

/-- Master lemma for the Morris loop: started on a stored subtree whose
exit pointer is not one of the subtree's own addresses, the loop
performs finitely many iterations, after which the heap is exactly as
at entry (every thread it created has been removed), the cursor has
moved to the exit pointer, and the `(count, ksmall)` registers have
absorbed the subtree's in-order key sequence. -/
theorem morris_master (k : Int) (t : BTree) :
    ∀ (H : Heap) (p : Option Nat) (as : List Nat) (e : Option Nat)
      (count ksmall : Int),
    IsTreeX H p t as e → as.Nodup → (∀ x, e = some x → x ∉ as) →
    ∃ n, morrisRun k n ⟨H, p, count, ksmall⟩ =
      some ⟨H, e, (visitList k (count, ksmall) (inorder t)).1,
        (visitList k (count, ksmall) (inorder t)).2⟩ := by
  induction t with
  | nil =>
    intro H p as e count ksmall h hnd he
    cases h
    exact ⟨0, rfl⟩
  | node v l r ihl ihr =>
    intro H p as e count ksmall h hnd he
    cases h with
    | node a v2 la ra l2 r2 al ar e2 ha hl hr =>
      obtain ⟨hpal, hpar, hndal, hndar, hdisj⟩ := nodup_parts a al ar hnd
      have heal : ∀ x, e = some x → x ∉ ar := fun x hx hmem =>
        he x hx (List.mem_cons_of_mem a (List.mem_append_right al hmem))
      cases l with
      | nil =>
        cases hl with
        | nil =>
          have hstep := morrisStep_visit k H a count ksmall ⟨v, none, ra⟩ ha rfl
          obtain ⟨n2, hrun2⟩ := ihr H ra ar e (count + 1)
            (if count + 1 = k then v else ksmall) hr hndar heal
          refine ⟨1 + n2, ?_⟩
          rw [morrisRun_add k 1 n2]
          have h1 : morrisRun k 1 ⟨H, some a, count, ksmall⟩
              = some ⟨H, ra, count + 1, if count + 1 = k then v else ksmall⟩ := by
            show (morrisStep k _).bind (morrisRun k 0) = _
            rw [hstep]
            rfl
          rw [h1]
          show morrisRun k n2 _ = _
          rw [hrun2]
          simp only [inorder, visitList, List.nil_append, List.foldl_cons, visitFold]
      | node lv ll lr =>
        obtain ⟨laddr, hla⟩ := isTreeX_node_some H la lv ll lr al none hl
        subst hla
        obtain ⟨ρ, hρmem, ⟨w, wl, hρheap⟩, hρfind, hρset⟩ :=
          isTreeX_spine (BTree.node lv ll lr) H laddr al none (by simp) hl hndal
        have hallt : ∀ x ∈ al, x < H.length := fun x hx =>
          isTreeX_lt H (some laddr) _ al none hl x hx
        have hallen : al.length ≤ H.length := nodup_length_le al H.length hndal hallt
        have hf1 : findPre H a (H.length + 1) laddr = some ρ :=
          hρfind a (H.length + 1) (by omega) (Or.inl rfl) hpal
        have hstep1 := morrisStep_thread k H a laddr ρ count ksmall
          ⟨v, some laddr, ra⟩ ⟨w, wl, none⟩ ha rfl hf1 hρheap rfl
        have hth : IsTreeX (setRightH H ρ (some a)) (some laddr)
            (BTree.node lv ll lr) al (some a) := hρset (some a)
        have hel2 : ∀ x, (some a : Option Nat) = some x → x ∉ al := by
          intro x hx
          cases hx
          exact hpal
        obtain ⟨n1, hrun1⟩ := ihl (setRightH H ρ (some a)) (some laddr) al
          (some a) count ksmall hth hndal hel2
        obtain ⟨ρ2, hρ2mem, ⟨w2, wl2, hρ2heap⟩, hρ2find, hρ2set⟩ :=
          isTreeX_spine (BTree.node lv ll lr) (setRightH H ρ (some a)) laddr al
            (some a) (by simp) hth hndal
        have hρeq : ρ2 = ρ := by
          by_contra hne
          have hsame : (setRightH H ρ (some a))[ρ2]? = H[ρ2]? :=
            getElem?_setRightH_ne H ρ ρ2 (some a) hne
          rw [hsame] at hρ2heap
          rcases isTreeX_right_field H (some laddr) _ al none hl ρ2 hρ2mem
              ⟨w2, wl2, some a⟩ hρ2heap with h0 | h0 | ⟨y, hy, h0⟩
          · exact Option.noConfusion h0
          · exact Option.noConfusion h0
          · cases h0
            exact hpal hy
        subst hρeq
        have hane : a ≠ ρ2 := fun hh => hpal (hh ▸ hρ2mem)
        have ha1 : (setRightH H ρ2 (some a))[a]? = some ⟨v, some laddr, ra⟩ :=
          (getElem?_setRightH_ne H ρ2 a (some a) hane).trans ha
        have hf2 : findPre (setRightH H ρ2 (some a)) a
            ((setRightH H ρ2 (some a)).length + 1) laddr = some ρ2 :=
          hρ2find a ((setRightH H ρ2 (some a)).length + 1)
            (by rw [setRightH_length]; omega) (Or.inr rfl) hpal
        have hrest : setRightH (setRightH H ρ2 (some a)) ρ2 none = H := by
          rw [setRightH_setRightH H ρ2 ⟨w, wl, none⟩ (some a) none hρheap]
          exact setRightH_same H ρ2 ⟨w, wl, none⟩ hρheap
        have hn2get : (setRightH (setRightH H ρ2 (some a)) ρ2 none)[a]?
            = some ⟨v, some laddr, ra⟩ := by
          rw [hrest]
          exact ha
        have hstep2 := morrisStep_unthread k (setRightH H ρ2 (some a)) a laddr ρ2 a
          (visitList k (count, ksmall) (inorder (BTree.node lv ll lr))).1
          (visitList k (count, ksmall) (inorder (BTree.node lv ll lr))).2
          ⟨v, some laddr, ra⟩ ⟨w2, wl2, some a⟩ ⟨v, some laddr, ra⟩
          ha1 rfl hf2 hρ2heap rfl hn2get
        rw [hrest] at hstep2
        obtain ⟨n2, hrun2⟩ := ihr H ra ar e
          ((visitList k (count, ksmall) (inorder (BTree.node lv ll lr))).1 + 1)
          (if (visitList k (count, ksmall) (inorder (BTree.node lv ll lr))).1 + 1 = k
            then v
            else (visitList k (count, ksmall) (inorder (BTree.node lv ll lr))).2)
          hr hndar heal
        refine ⟨1 + (n1 + (1 + n2)), ?_⟩
        rw [morrisRun_add k 1 (n1 + (1 + n2))]
        have h1 : morrisRun k 1 ⟨H, some a, count, ksmall⟩
            = some ⟨setRightH H ρ2 (some a), some laddr, count, ksmall⟩ := by
          show (morrisStep k _).bind (morrisRun k 0) = _
          rw [hstep1]
          rfl
        rw [h1]
        show morrisRun k (n1 + (1 + n2)) _ = _
        rw [morrisRun_add k n1 (1 + n2), hrun1]
        show morrisRun k (1 + n2) _ = _
        rw [morrisRun_add k 1 n2]
        have h2 : morrisRun k 1 ⟨setRightH H ρ2 (some a), some a,
              (visitList k (count, ksmall) (inorder (BTree.node lv ll lr))).1,
              (visitList k (count, ksmall) (inorder (BTree.node lv ll lr))).2⟩
            = some ⟨H, ra,
              (visitList k (count, ksmall) (inorder (BTree.node lv ll lr))).1 + 1,
              if (visitList k (count, ksmall) (inorder (BTree.node lv ll lr))).1 + 1 = k
                then v
                else (visitList k (count, ksmall) (inorder (BTree.node lv ll lr))).2⟩ := by
          show (morrisStep k _).bind (morrisRun k 0) = _
          rw [hstep2]
          rfl
        rw [h2]
        show morrisRun k n2 _ = _
        rw [hrun2]
        simp only [inorder, visitList, List.foldl_append, List.foldl_cons, visitFold]

/-- The example heap stores the example tree at root address 0. -/
theorem wHeap_isTreeX : IsTreeX wHeap (some 0) wTree [0, 1, 2] none := by
  have h1 : IsTreeX wHeap (some 1) (.node 1 .nil .nil) (1 :: ([] ++ [])) none :=
    IsTreeX.node 1 1 none none .nil .nil [] [] none rfl
      (IsTreeX.nil none) (IsTreeX.nil none)
  have h2 : IsTreeX wHeap (some 2) (.node 3 .nil .nil) (2 :: ([] ++ [])) none :=
    IsTreeX.node 2 3 none none .nil .nil [] [] none rfl
      (IsTreeX.nil none) (IsTreeX.nil none)
  exact IsTreeX.node 0 2 (some 1) (some 2) (.node 1 .nil .nil) (.node 3 .nil .nil)
    (1 :: ([] ++ [])) (2 :: ([] ++ [])) none rfl h1 h2

/-- Claim C10: for every stored finite tree and any `k`, the Morris loop of
`kSmallest` terminates: some iteration count reaches a null cursor, and
the state is then stable under any extra fuel (every thread the loop
creates is removed when the threaded ancestor is revisited, so the
temporary cycles never trap the cursor). -/
theorem kSmallest_loop_terminates (H : Heap) (p : Option Nat) (t : BTree)
    (as : List Nat) (k : Int)
    (ht : IsTreeX H p t as none) (hnd : as.Nodup) :
    ∃ n, ∀ m, n ≤ m →
      ∃ s : MorrisState, morrisRun k m ⟨H, p, 0, intMin⟩ = some s ∧ s.curr = none := by
  obtain ⟨n, hrun⟩ := morris_master k t H p as none 0 intMin ht hnd
    (fun x hx => Option.noConfusion hx)
  refine ⟨n, fun m hm =>
    ⟨⟨H, none, (visitList k (0, intMin) (inorder t)).1,
      (visitList k (0, intMin) (inorder t)).2⟩, ?_, rfl⟩⟩
  have hm2 : m = n + (m - n) := by omega
  rw [hm2, morrisRun_add, hrun]
  exact morrisRun_stable k (m - n) _ rfl

/-- Concrete instance of loop termination on the stored 3-node tree
with `k = 2`. -/
theorem kSmallest_loop_terminates_witness :
    ∃ n, ∀ m, n ≤ m →
      ∃ s : MorrisState, morrisRun 2 m ⟨wHeap, some 0, 0, intMin⟩ = some s
        ∧ s.curr = none :=
  kSmallest_loop_terminates wHeap (some 0) wTree [0, 1, 2] 2 wHeap_isTreeX (by decide)

/-- Claim C7: for any valid `k`, `kSmallest` returns with the heap exactly as
it was before the call — every temporarily rewired right pointer has
been restored — and the call touches neither keys nor `elements` (the
traversal state does not carry the element count at all; the tree's
final cell list is the initial one). -/
theorem kSmallest_preserves_heap (H : Heap) (p : Option Nat) (t : BTree)
    (as : List Nat) (k elements : Int)
    (ht : IsTreeX H p t as none) (hnd : as.Nodup)
    (hk1 : 1 ≤ k) (hk2 : k ≤ elements) :
    ∃ n, ∀ m, n ≤ m →
      ∃ v, kSmallestH m H p elements k = .ok (some (v, H)) := by
  obtain ⟨n, hrun⟩ := morris_master k t H p as none 0 intMin ht hnd
    (fun x hx => Option.noConfusion hx)
  refine ⟨n, fun m hm => ⟨(visitList k (0, intMin) (inorder t)).2, ?_⟩⟩
  unfold kSmallestH
  rw [if_neg (by omega)]
  have hrunm : morrisRun k m ⟨H, p, 0, intMin⟩
      = some ⟨H, none, (visitList k (0, intMin) (inorder t)).1,
          (visitList k (0, intMin) (inorder t)).2⟩ := by
    have hm2 : m = n + (m - n) := by omega
    rw [hm2, morrisRun_add, hrun]
    exact morrisRun_stable k (m - n) _ rfl
  rw [hrunm]
  rfl

/-- Concrete instance of heap preservation on the stored 3-node tree
with `k = 1`. -/
theorem kSmallest_preserves_heap_witness :
    ∃ n, ∀ m, n ≤ m →
      ∃ v, kSmallestH m wHeap (some 0) 3 1 = .ok (some (v, wHeap)) :=
  kSmallest_preserves_heap wHeap (some 0) wTree [0, 1, 2] 1 3 wHeap_isTreeX
    (by decide) (by norm_num) (by norm_num)

/-- Claim C6: `kSmallest` fails exactly when `k < 1` or `k > elements`, and
for `k` in range (on a stored BST whose `elements` matches its node
count) it returns the `k`-th entry of the strictly increasing in-order
key sequence, whose length is the element count — so `k = 1..elements`
enumerates the ascending keys exactly once each. -/
theorem kSmallest_kth_smallest (H : Heap) (p : Option Nat) (t : BTree)
    (as : List Nat) (k elements : Int)
    (ht : IsTreeX H p t as none) (hnd : as.Nodup)
    (hbst : isBST t = true) (hel : elements = numNodes t) :
    (∀ fuel, kSmallestH fuel H p elements k = .error () ↔ (k < 1 ∨ k > elements))
    ∧ (1 ≤ k → k ≤ elements →
        ∃ n, ∀ m, n ≤ m →
          kSmallestH m H p elements k
            = .ok (some ((inorder t).getD (k - 1).toNat 0, H)))
    ∧ List.Chain' (· < ·) (inorder t)
    ∧ ((inorder t).length : Int) = elements := by
  have hlen : ((inorder t).length : Int) = elements := by
    rw [hel, numNodes_eq_length]
  refine ⟨fun fuel => ?_, fun hk1 hk2 => ?_, chain'_lt_inorder t hbst, hlen⟩
  · unfold kSmallestH
    split_ifs with hcond
    · exact iff_of_true rfl hcond
    · exact iff_of_false (by simp) hcond
  · obtain ⟨n, hrun⟩ := morris_master k t H p as none 0 intMin ht hnd
      (fun x hx => Option.noConfusion hx)
    have hks : (visitList k (0, intMin) (inorder t)).2
        = (inorder t).getD (k - 1).toNat 0 := by
      rw [visitList_snd k (inorder t) 0 intMin,
        if_pos (show (0 : Int) < k ∧ k ≤ 0 + ((inorder t).length : Int) by
          rw [hlen]; omega)]
      congr 1
      omega
    refine ⟨n, fun m hm => ?_⟩
    unfold kSmallestH
    rw [if_neg (by omega)]
    have hrunm : morrisRun k m ⟨H, p, 0, intMin⟩
        = some ⟨H, none, (visitList k (0, intMin) (inorder t)).1,
            (visitList k (0, intMin) (inorder t)).2⟩ := by
      have hm2 : m = n + (m - n) := by omega
      rw [hm2, morrisRun_add, hrun]
      exact morrisRun_stable k (m - n) _ rfl
    rw [hrunm]
    show Except.ok (some ((visitList k (0, intMin) (inorder t)).2, H)) = _
    rw [hks]

/-- Concrete instance: on the stored tree with keys 1, 2, 3 and
element count 3, `kSmallest 2` eventually returns the second smallest
key together with the untouched heap. -/
theorem kSmallest_kth_smallest_witness :
    ∃ n, ∀ m, n ≤ m →
      kSmallestH m wHeap (some 0) 3 2
        = .ok (some ((inorder wTree).getD ((2 : Int) - 1).toNat 0, wHeap)) :=
  (kSmallest_kth_smallest wHeap (some 0) wTree [0, 1, 2] 2 3 wHeap_isTreeX
    (by decide) (by decide) (by decide)).2.1 (by norm_num) (by norm_num)

/-- Claim C8: the claim asserts the count identity on every reachable
state, and the code falsifies it: the run insert 1 then delete 1
reaches a state whose tree is empty (so `countSmallerThan x +
countGreaterThan x + (1 if x present)` is 0 for every x) while
`elementCount` is still 1, because `deleteNode` decrements `elements`
only in its two-children branch.  The identity itself does hold on
states satisfying the documented invariants (`count_consistency`). -/
theorem count_consistency_breaks_on_reachable_state :
    ∃ s : AVLState,
      (do
        let s1 ← avlInsert 9 emptyAVL 1
        avlDelete 9 s1 1) = some s
      ∧ decodeT 9 s.heap s.root = some BTree.nil
      ∧ ∀ x : Int, s.elements
          ≠ numNodesSmallerThan BTree.nil x + numNodesGreaterThan BTree.nil x
            + (if x ∈ inorder BTree.nil then 1 else 0) := by
  refine ⟨⟨[⟨1, none, none⟩], none, 1⟩, rfl, rfl, fun x => ?_⟩
  simp [numNodesSmallerThan, numNodesGreaterThan, inorder]
